import Mathlib

/-!
Shallow embedding of the `moving_average` Rust crate (`src/lib.rs`).

The accumulator `Moving<T>` keeps a running count, a running mean, a
frequency table for the mode, and a threshold.  Arithmetic on `f64` is
modelled by exact rational arithmetic (`ℚ`); the spec itself frames the
mean property as exact "under exact rational arithmetic".  The
`HashMap<OrderedFloat<f64>, usize>` frequency table is modelled as an
association list in insertion order; iteration order of the real hash map
is unspecified, and the list order stands for one possible iteration
order wherever `mode` traverses the table.

Numeric kinds (the `Sign + ToPrimitive` bound of the Rust code) are
modelled by `NumKind`: a `signed` flag (the `Sign::signed()` trait
method) and a conversion to the rational standing for the `f64` value
(`ToPrimitive::to_f64` / `as f64`, which agree on every kind the crate
instantiates).
-/

namespace MovingAverage

/-- The error enum `MovingError` of the crate, all five declared variants. -/
inductive MovingError where
  | NegativeValueToUnsignedType
  | Overflow
  | Underflow
  | CountOverflow
  | ThresholdReached
  deriving DecidableEq, Repr

/-- A numeric kind `T : Sign + ToPrimitive`: its `signed()` answer and its
conversion to the `f64` value (modelled exactly in `ℚ`). -/
structure NumKind (α : Type) where
  signed : Bool
  toF64 : α → ℚ

/-- `f64::MAX = (2 - 2⁻⁵²) · 2¹⁰²³` as an exact rational. -/
def f64MAX : ℚ := 2 ^ 1024 - 2 ^ 971

/-- The state of `Moving<T>` (the `PhantomData` type parameter does not
enter the state).  `mode_map` is the `mode: HashMap<OrderedFloat<f64>, usize>`
field, as an association list in insertion order. -/
structure Moving where
  count : ℕ
  mean : ℚ
  mode_map : List (ℚ × ℕ)
  threshold : ℚ
  deriving DecidableEq, Repr

/-- `Moving::new()`: count 0, mean 0.0, empty table, threshold `f64::MAX`. -/
def Moving.new : Moving :=
  { count := 0, mean := 0, mode_map := [], threshold := f64MAX }

/-- `Moving::new_with_threshold(threshold)`. -/
def Moving.new_with_threshold (threshold : ℚ) : Moving :=
  { count := 0, mean := 0, mode_map := [], threshold := threshold }

/-- `mode.entry(OrderedFloat(value_f64)).and_modify(|e| *e += 1).or_insert(1)`:
increment the count stored under the key, inserting `1` if absent. -/
def bump : List (ℚ × ℕ) → ℚ → List (ℚ × ℕ)
  | [], k => [(k, 1)]
  | (k', c) :: rest, k =>
      if k' = k then (k', c + 1) :: rest else (k', c) :: bump rest k

/-- `Moving::add_with_result(&self, value: T) -> Result<f64, MovingError>`,
returning the successor state together with the `Result`. -/
def Moving.add_with_result (s : Moving) (K : NumKind α) (value : α) :
    Moving × Except MovingError ℚ :=
  let value_f64 : ℚ := K.toF64 value
  if !K.signed && value_f64 < 0 then
    (s, .error .NegativeValueToUnsignedType)
  else
    let mode_map := bump s.mode_map value_f64
    let count := s.count + 1
    let mean := s.mean + (value_f64 - s.mean) / (count : ℚ)
    let s' : Moving :=
      { count := count, mean := mean, mode_map := mode_map,
        threshold := s.threshold }
    if s'.mean ≥ s.threshold then
      (s', .error .ThresholdReached)
    else
      (s', .ok s'.mean)

/-- `Moving::add(&self, value: T)`: call `add_with_result`, discard the result. -/
def Moving.add (s : Moving) (K : NumKind α) (value : α) : Moving :=
  (s.add_with_result K value).1

/-- Fold `add` over a list of values. -/
def addAll (K : NumKind α) (s : Moving) (vs : List α) : Moving :=
  vs.foldl (fun t v => t.add K v) s

/-- Truncation of a rational toward zero (what `as i64` does to the
fractional part of a finite `f64`). -/
def rat_trunc (q : ℚ) : ℤ :=
  if 0 ≤ q then ⌊q⌋ else -⌊-q⌋

/-- The Rust cast `q as i64` on a finite `f64` value: truncate toward zero,
saturating at the `i64` bounds. -/
def f64_as_i64 (q : ℚ) : ℤ :=
  if q ≤ -(2 ^ 63 : ℚ) then -(2 ^ 63)
  else if (2 ^ 63 : ℚ) ≤ q then 2 ^ 63 - 1
  else rat_trunc q

/-- `mode_map.values().max()`. -/
def values_max : List (ℚ × ℕ) → Option ℕ
  | [] => none
  | p :: ps => some (ps.foldl (fun a q => max a q.2) p.2)

/-- `Iterator::min_by_key`: the FIRST element attaining the minimal key
(later elements replace the current best only on a strictly smaller key). -/
def min_by_key (key : ℚ × ℕ → ℤ) : List (ℚ × ℕ) → Option (ℚ × ℕ)
  | [] => none
  | p :: ps => some (ps.foldl (fun best q => if key q < key best then q else best) p)

/-- `Moving::mode(&self) -> f64`: 0.0 on an empty table; the mean when the
maximal frequency is not `> 1`; the unique most-frequent value when there is
one; otherwise the tied value minimising `(value - mean).abs() as i64`,
first in table order on equal keys. -/
def Moving.mode (s : Moving) : ℚ :=
  if s.mode_map = [] then 0
  else
    match values_max s.mode_map with
    | some max_count =>
        if max_count > 1 then
          let modes := s.mode_map.filter (fun p => p.2 = max_count)
          if modes.length ≠ 1 then
            match min_by_key (fun p => f64_as_i64 |p.1 - s.mean|) modes with
            | some closest => closest.1
            | none => 0
          else
            match modes with
            | p :: _ => p.1
            | [] => 0
        else s.mean
    | none => s.mean

/-- `f64::partial_cmp` on the exact values (always `Some`, as no operand is
a NaN in the rational model). -/
def rat_cmp (a b : ℚ) : Option Ordering :=
  if a < b then some .lt else if a = b then some .eq else some .gt

/-- `impl PartialEq<$ty> for Moving<$ty>`: `self.mean() == *other as f64`. -/
def Moving.eq_lit (s : Moving) (K : NumKind α) (other : α) : Bool :=
  s.mean = K.toF64 other

/-- `impl PartialOrd<$ty> for Moving<$ty>`:
`self.mean().partial_cmp(&(*other as f64))`. -/
def Moving.cmp_lit (s : Moving) (K : NumKind α) (other : α) : Option Ordering :=
  rat_cmp s.mean (K.toF64 other)

/-- `impl PartialEq<Moving<$ty>> for $ty`: `*self as f64 == other.mean()`. -/
def lit_eq_moving (K : NumKind α) (x : α) (s : Moving) : Bool :=
  K.toF64 x = s.mean

/-- `impl PartialOrd<Moving<$ty>> for $ty`:
`(*self as f64).partial_cmp(&other.mean())`. -/
def lit_cmp_moving (K : NumKind α) (x : α) (s : Moving) : Option Ordering :=
  rat_cmp (K.toF64 x) s.mean

/-- `impl PartialEq for Moving<T>`: `*self.mean.borrow() == *other.mean.borrow()`. -/
def Moving.eq_moving (s other : Moving) : Bool :=
  s.mean = other.mean

/-- `impl PartialOrd for Moving<T>`:
`self.mean.borrow().partial_cmp(&*other.mean.borrow())`. -/
def Moving.cmp_moving (s other : Moving) : Option Ordering :=
  rat_cmp s.mean other.mean

/-- The kind `f64` itself: signed, conversion is the identity. -/
def f64Kind : NumKind ℚ := { signed := true, toF64 := fun q => q }

/-- The kind `i64` (and the shape of every signed integer kind):
`signed() = true`, exact conversion of the integer to `f64`.  (For the
magnitudes used in this file the real conversion is exact.) -/
def i64Kind : NumKind ℤ := { signed := true, toF64 := fun n => (n : ℚ) }

/-- `usize`: `signed() = false`, values are naturals, conversion non-negative. -/
def usizeKind : NumKind ℕ := { signed := false, toF64 := fun n => (n : ℚ) }

/-- `u8`. -/
def u8Kind : NumKind ℕ := { signed := false, toF64 := fun n => (n : ℚ) }

/-- `u16`. -/
def u16Kind : NumKind ℕ := { signed := false, toF64 := fun n => (n : ℚ) }

/-- `u32`. -/
def u32Kind : NumKind ℕ := { signed := false, toF64 := fun n => (n : ℚ) }

/-- `u64`. -/
def u64Kind : NumKind ℕ := { signed := false, toF64 := fun n => (n : ℚ) }

/-- `u128`. -/
def u128Kind : NumKind ℕ := { signed := false, toF64 := fun n => (n : ℚ) }

/-- A hypothetical kind whose `Sign` impl answers `false` while its carrier
still holds negative values — the only way, as in Rust with a custom `Sign`
impl, to exercise the sign-validation branch. -/
def badUnsignedKind : NumKind ℤ := { signed := false, toF64 := fun n => (n : ℚ) }

/-- The state after the commit part of `add_with_result` (table bump, count
increment, incremental mean update) — the successor state on every path that
passes sign validation. -/
def commitState (s : Moving) (q : ℚ) : Moving :=
  { count := s.count + 1,
    mean := s.mean + (q - s.mean) / ((s.count + 1 : ℕ) : ℚ),
    mode_map := bump s.mode_map q,
    threshold := s.threshold }

/-- Whether a value passes the sign validation of `add_with_result`
(the negation of `!T::signed() && value_f64 < 0.0`). -/
def accepted (K : NumKind α) (v : α) : Bool :=
  !(!K.signed && decide (K.toF64 v < 0))

/-- Sum of the occurrence counts stored in the frequency table. -/
def table_sum (m : List (ℚ × ℕ)) : ℕ := (m.map (fun p => p.2)).sum

theorem accepted_iff (K : NumKind α) (v : α) :
    accepted K v = true ↔ (K.signed = true ∨ 0 ≤ K.toF64 v) := by
  unfold accepted
  cases h : K.signed <;> simp [h, not_lt]

/-- `add_with_result` in case-split form: reject on failed sign validation,
otherwise commit and signal `ThresholdReached` when the new mean reaches the
threshold. -/
theorem add_with_result_eq (s : Moving) (K : NumKind α) (v : α) :
    s.add_with_result K v =
      if accepted K v = true then
        if s.threshold ≤ (commitState s (K.toF64 v)).mean then
          (commitState s (K.toF64 v), .error .ThresholdReached)
        else
          (commitState s (K.toF64 v), .ok (commitState s (K.toF64 v)).mean)
      else
        (s, .error .NegativeValueToUnsignedType) := by
  unfold Moving.add_with_result commitState accepted
  cases h1 : K.signed <;> by_cases h2 : K.toF64 v < 0 <;>
    simp [h1, h2, GE.ge]

theorem add_eq (s : Moving) (K : NumKind α) (v : α) :
    s.add K v = if accepted K v = true then commitState s (K.toF64 v) else s := by
  unfold Moving.add
  rw [add_with_result_eq]
  split_ifs <;> rfl

theorem addAll_nil (K : NumKind α) (s : Moving) : addAll K s [] = s := rfl

theorem addAll_cons (K : NumKind α) (s : Moving) (v : α) (vs : List α) :
    addAll K s (v :: vs) = addAll K (s.add K v) vs := rfl

theorem add_threshold (s : Moving) (K : NumKind α) (v : α) :
    (s.add K v).threshold = s.threshold := by
  rw [add_eq]; split_ifs <;> rfl

theorem addAll_threshold (K : NumKind α) (vs : List α) (s : Moving) :
    (addAll K s vs).threshold = s.threshold := by
  induction vs generalizing s with
  | nil => rfl
  | cons v vs ih => rw [addAll_cons, ih, add_threshold]

theorem addAll_count (K : NumKind α) (vs : List α) (s : Moving) :
    (addAll K s vs).count =
      s.count + (vs.filter (fun v => accepted K v)).length := by
  induction vs generalizing s with
  | nil => rfl
  | cons v vs ih =>
    rw [addAll_cons, ih, add_eq, List.filter_cons]
    by_cases h : accepted K v = true
    · simp [h, commitState]
      omega
    · simp [h]

theorem commit_mean_mul (s : Moving) (q : ℚ) :
    (commitState s q).mean * ((commitState s q).count : ℚ) =
      s.mean * (s.count : ℚ) + q := by
  unfold commitState
  have hc : ((s.count : ℚ) + 1) ≠ 0 := by positivity
  push_cast
  field_simp
  ring

theorem addAll_mean_mul (K : NumKind α) (vs : List α) (s : Moving)
    (h : ∀ v ∈ vs, accepted K v = true) :
    (addAll K s vs).mean * ((addAll K s vs).count : ℚ) =
      s.mean * (s.count : ℚ) + ((vs.map K.toF64).sum) := by
  induction vs generalizing s with
  | nil => simp [addAll_nil]
  | cons v vs ih =>
    rw [addAll_cons, add_eq, if_pos (h v (List.mem_cons_self v vs))]
    rw [ih _ (fun x hx => h x (List.mem_cons_of_mem v hx)), commit_mean_mul]
    simp [add_assoc]

theorem commit_mean_lt {s : Moving} {q B : ℚ} (hm : s.mean < B) (hq : q < B) :
    (commitState s q).mean < B := by
  have hc : (0 : ℚ) < (s.count : ℚ) + 1 := by positivity
  have hmf : (commitState s q).mean = (s.mean * s.count + q) / ((s.count : ℚ) + 1) := by
    unfold commitState
    push_cast
    field_simp
    ring
  rw [hmf, div_lt_iff₀ hc]
  have hcn : (0 : ℚ) ≤ (s.count : ℚ) := Nat.cast_nonneg s.count
  nlinarith

theorem addAll_mean_lt (K : NumKind α) (vs : List α) (s : Moving) {B : ℚ}
    (hm : s.mean < B) (h : ∀ v ∈ vs, K.toF64 v < B) :
    (addAll K s vs).mean < B := by
  induction vs generalizing s with
  | nil => exact hm
  | cons v vs ih =>
    rw [addAll_cons, add_eq]
    split_ifs with hacc
    · exact ih _ (commit_mean_lt hm (h v (List.mem_cons_self v vs)))
        (fun x hx => h x (List.mem_cons_of_mem v hx))
    · exact ih _ hm (fun x hx => h x (List.mem_cons_of_mem v hx))

/-- Sum of the occurrence counts stored in the frequency table. -/
theorem bump_table_sum (m : List (ℚ × ℕ)) (k : ℚ) :
    table_sum (bump m k) = table_sum m + 1 := by
  induction m with
  | nil => rfl
  | cons p rest ih =>
    obtain ⟨k', c⟩ := p
    unfold bump
    split_ifs with h
    · simp [table_sum]
      omega
    · simp only [table_sum, List.map_cons, List.sum_cons] at ih ⊢
      omega

theorem min_fold_mem (key : ℚ × ℕ → ℤ) (ps : List (ℚ × ℕ)) (p : ℚ × ℕ) :
    ps.foldl (fun best q => if key q < key best then q else best) p ∈ p :: ps := by
  induction ps generalizing p with
  | nil => simp
  | cons q qs ih =>
    simp only [List.foldl_cons]
    have hp' : (if key q < key p then q else p) ∈ p :: q :: qs := by
      split_ifs
      · exact List.mem_cons_of_mem p (List.mem_cons_self q qs)
      · exact List.mem_cons_self p (q :: qs)
    rcases List.mem_cons.mp (ih (if key q < key p then q else p)) with h | h
    · rw [h]
      exact hp'
    · exact List.mem_cons_of_mem p (List.mem_cons_of_mem q h)

theorem min_fold_le (key : ℚ × ℕ → ℤ) (ps : List (ℚ × ℕ)) (p : ℚ × ℕ) :
    ∀ r ∈ p :: ps,
      key (ps.foldl (fun best q => if key q < key best then q else best) p) ≤ key r := by
  induction ps generalizing p with
  | nil =>
    intro r hr
    simp only [List.mem_singleton] at hr
    simp [hr]
  | cons q qs ih =>
    intro r hr
    have hbase : key (qs.foldl (fun best x => if key x < key best then x else best)
        (if key q < key p then q else p)) ≤ key (if key q < key p then q else p) :=
      ih (if key q < key p then q else p) (if key q < key p then q else p)
        (List.mem_cons_self _ _)
    have hle_p : key (if key q < key p then q else p) ≤ key p := by
      split_ifs with hlt
      · exact le_of_lt hlt
      · exact le_refl _
    have hle_q : key (if key q < key p then q else p) ≤ key q := by
      split_ifs with hlt
      · exact le_refl _
      · exact not_lt.mp hlt
    simp only [List.foldl_cons]
    rcases List.mem_cons.mp hr with h | h
    · subst h
      exact le_trans hbase hle_p
    · rcases List.mem_cons.mp h with h2 | h2
      · subst h2
        exact le_trans hbase hle_q
      · exact ih (if key q < key p then q else p) r (List.mem_cons_of_mem _ h2)

theorem not_accepted_iff (K : NumKind α) (v : α) :
    ¬ accepted K v = true ↔ (K.signed = false ∧ K.toF64 v < 0) := by
  rw [accepted_iff]
  cases h : K.signed <;> simp [h, not_le]

theorem nvtut_not_of_nonneg (K : NumKind α) (s : Moving) (v : α)
    (h : 0 ≤ K.toF64 v) :
    (s.add_with_result K v).2 ≠ .error .NegativeValueToUnsignedType := by
  rw [add_with_result_eq, if_pos ((accepted_iff K v).mpr (Or.inr h))]
  split_ifs <;> simp

theorem rat_cmp_lt (a b : ℚ) : rat_cmp a b = some .lt ↔ a < b := by
  unfold rat_cmp
  split_ifs with h1 h2
  · exact iff_of_true rfl h1
  · exact iff_of_false (by simp) h1
  · exact iff_of_false (by simp) h1

theorem rat_cmp_eq (a b : ℚ) : rat_cmp a b = some .eq ↔ a = b := by
  unfold rat_cmp
  split_ifs with h1 h2
  · exact iff_of_false (by simp) (ne_of_lt h1)
  · exact iff_of_true rfl h2
  · exact iff_of_false (by simp) h2

theorem rat_cmp_gt (a b : ℚ) : rat_cmp a b = some .gt ↔ b < a := by
  unfold rat_cmp
  split_ifs with h1 h2
  · exact iff_of_false (by simp) (lt_asymm h1)
  · exact iff_of_false (by simp) (by rw [h2]; exact lt_irrefl b)
  · exact iff_of_true rfl (lt_of_le_of_ne (not_lt.mp h1) (Ne.symm h2))

/-- C1: for a non-empty sequence of values that all pass sign validation,
after calling `add` on each, `mean()` equals the exact arithmetic mean
`(v1 + ... + vn) / n` — even though `add_with_result` computes it by the
incremental update `mean + (value_f64 - mean) / count`, never by re-summing. -/
theorem C1_mean_is_sum_div_count (K : NumKind α) (vs : List α)
    (hne : vs ≠ []) (hacc : ∀ v ∈ vs, accepted K v = true) :
    (addAll K Moving.new vs).mean = (vs.map K.toF64).sum / (vs.length : ℚ) := by
  have hm := addAll_mean_mul K vs Moving.new hacc
  have hc := addAll_count K vs Moving.new
  rw [List.filter_eq_self.mpr hacc] at hc
  have hlen : (vs.length : ℚ) ≠ 0 := by
    have h0 : 0 < vs.length := List.length_pos.mpr hne
    exact_mod_cast Nat.pos_iff_ne_zero.mp h0
  rw [hc] at hm
  have h1 : Moving.new.count = 0 := rfl
  have h2 : Moving.new.mean = 0 := rfl
  rw [h1, h2] at hm
  push_cast at hm
  simp only [zero_mul, zero_add] at hm
  rw [eq_div_iff hlen]
  exact hm

/-- Witness for C1: the sequence 10, 20 over `i64` gives mean (10+20)/2. -/
theorem C1_witness :
    (addAll i64Kind Moving.new [10, 20]).mean =
      (([10, 20] : List ℤ).map i64Kind.toF64).sum /
        ((([10, 20] : List ℤ).length : ℕ) : ℚ) :=
  C1_mean_is_sum_div_count i64Kind [10, 20] (by simp) (fun v _ => rfl)

/-- C4: a call returning `Ok` or `ThresholdReached` increments `count` by
exactly 1, a call returning `NegativeValueToUnsignedType` leaves `count`
unchanged, `count` never decreases, starts at 0, and over any sequence equals
the number of calls that did not fail sign validation. -/
theorem C4_count_semantics (K : NumKind α) (s : Moving) (v : α) :
    (∀ m : ℚ, (s.add_with_result K v).2 = .ok m →
        (s.add_with_result K v).1.count = s.count + 1) ∧
    ((s.add_with_result K v).2 = .error .ThresholdReached →
        (s.add_with_result K v).1.count = s.count + 1) ∧
    ((s.add_with_result K v).2 = .error .NegativeValueToUnsignedType →
        (s.add_with_result K v).1.count = s.count) ∧
    s.count ≤ (s.add_with_result K v).1.count ∧
    Moving.new.count = 0 ∧
    (∀ vs : List α, (addAll K Moving.new vs).count =
        (vs.filter (fun x => accepted K x)).length) := by
  have hall : ∀ vs : List α, (addAll K Moving.new vs).count =
      (vs.filter (fun x => accepted K x)).length := by
    intro vs
    rw [addAll_count]
    simp [Moving.new]
  rw [add_with_result_eq]
  split_ifs with hacc hth
  · exact ⟨fun m hm => by simp at hm, fun _ => rfl, fun hx => by simp at hx,
      Nat.le_succ s.count, rfl, hall⟩
  · exact ⟨fun m _ => rfl, fun hx => by simp at hx, fun hx => by simp at hx,
      Nat.le_succ s.count, rfl, hall⟩
  · exact ⟨fun m hm => by simp at hm, fun hx => by simp at hx, fun _ => rfl,
      le_refl s.count, rfl, hall⟩

/-- Witness for C4: adding 5 to a fresh accumulator returns `Ok` and bumps
`count` from 0 to 1. -/
theorem C4_witness :
    (Moving.new.add_with_result i64Kind 5).1.count = Moving.new.count + 1 :=
  (C4_count_semantics i64Kind Moving.new 5).1 5
    (by norm_num [Moving.add_with_result, Moving.new, bump, i64Kind, f64MAX])

/-- C5: `add_with_result` returns `NegativeValueToUnsignedType` exactly when
the kind is unsigned and the converted value is negative, and in that case the
whole state is unchanged. -/
theorem C5_sign_validation (K : NumKind α) (s : Moving) (v : α) :
    ((s.add_with_result K v).2 = .error .NegativeValueToUnsignedType ↔
      (K.signed = false ∧ K.toF64 v < 0)) ∧
    ((s.add_with_result K v).2 = .error .NegativeValueToUnsignedType →
      (s.add_with_result K v).1 = s) := by
  rw [add_with_result_eq]
  split_ifs with hacc hth
  · constructor
    · constructor
      · intro h
        simp at h
      · intro h
        exact absurd hacc (not_accepted_iff K v |>.mpr h)
    · intro h
      simp at h
  · constructor
    · constructor
      · intro h
        simp at h
      · intro h
        exact absurd hacc (not_accepted_iff K v |>.mpr h)
    · intro h
      simp at h
  · exact ⟨⟨fun _ => (not_accepted_iff K v).mp hacc, fun _ => rfl⟩, fun _ => rfl⟩

/-- Witness for C5: a kind whose `Sign` impl answers `false` over a signed
carrier rejects −1 without touching the state. -/
theorem C5_witness :
    (Moving.new.add_with_result badUnsignedKind (-1)).2 =
        .error .NegativeValueToUnsignedType ∧
      (Moving.new.add_with_result badUnsignedKind (-1)).1 = Moving.new := by
  have h := C5_sign_validation badUnsignedKind Moving.new (-1)
  have he : (Moving.new.add_with_result badUnsignedKind (-1)).2 =
      .error .NegativeValueToUnsignedType :=
    h.1.mpr ⟨rfl, by norm_num [badUnsignedKind]⟩
  exact ⟨he, h.2 he⟩

/-- C10: for the true unsigned kinds (usize, u8, u16, u32, u64, u128) the
conversion of any value is non-negative, so `add_with_result` can never
return `NegativeValueToUnsignedType`. -/
theorem C10_unsigned_kinds_never_negative (s : Moving) (n : ℕ) :
    (0 ≤ usizeKind.toF64 n ∧ 0 ≤ u8Kind.toF64 n ∧ 0 ≤ u16Kind.toF64 n ∧
      0 ≤ u32Kind.toF64 n ∧ 0 ≤ u64Kind.toF64 n ∧ 0 ≤ u128Kind.toF64 n) ∧
    ((s.add_with_result usizeKind n).2 ≠ .error .NegativeValueToUnsignedType ∧
      (s.add_with_result u8Kind n).2 ≠ .error .NegativeValueToUnsignedType ∧
      (s.add_with_result u16Kind n).2 ≠ .error .NegativeValueToUnsignedType ∧
      (s.add_with_result u32Kind n).2 ≠ .error .NegativeValueToUnsignedType ∧
      (s.add_with_result u64Kind n).2 ≠ .error .NegativeValueToUnsignedType ∧
      (s.add_with_result u128Kind n).2 ≠ .error .NegativeValueToUnsignedType) :=
  ⟨⟨Nat.cast_nonneg n, Nat.cast_nonneg n, Nat.cast_nonneg n,
      Nat.cast_nonneg n, Nat.cast_nonneg n, Nat.cast_nonneg n⟩,
    nvtut_not_of_nonneg usizeKind s n (Nat.cast_nonneg n),
    nvtut_not_of_nonneg u8Kind s n (Nat.cast_nonneg n),
    nvtut_not_of_nonneg u16Kind s n (Nat.cast_nonneg n),
    nvtut_not_of_nonneg u32Kind s n (Nat.cast_nonneg n),
    nvtut_not_of_nonneg u64Kind s n (Nat.cast_nonneg n),
    nvtut_not_of_nonneg u128Kind s n (Nat.cast_nonneg n)⟩

/-- C2: `add_with_result` returns `ThresholdReached` exactly when the value
passed sign validation and the updated mean reaches the threshold; in that
case the value has already been committed — count incremented, mean updated
by the incremental formula, table bumped — exactly the success state. -/
theorem C2_threshold_semantics (K : NumKind α) (s : Moving) (v : α) :
    ((s.add_with_result K v).2 = .error .ThresholdReached ↔
      (accepted K v = true ∧
        s.threshold ≤ s.mean + (K.toF64 v - s.mean) / ((s.count + 1 : ℕ) : ℚ))) ∧
    ((s.add_with_result K v).2 = .error .ThresholdReached →
      ((s.add_with_result K v).1.count = s.count + 1 ∧
        (s.add_with_result K v).1.mean =
          s.mean + (K.toF64 v - s.mean) / ((s.count + 1 : ℕ) : ℚ) ∧
        (s.add_with_result K v).1.mode_map = bump s.mode_map (K.toF64 v) ∧
        (s.add_with_result K v).1 = commitState s (K.toF64 v))) := by
  rw [add_with_result_eq]
  split_ifs with hacc hth
  · exact ⟨iff_of_true rfl ⟨hacc, hth⟩, fun _ => ⟨rfl, rfl, rfl, rfl⟩⟩
  · constructor
    · exact iff_of_false (by simp) (fun h => hth h.2)
    · intro h
      simp at h
  · constructor
    · exact iff_of_false (by simp) (fun h => hacc h.1)
    · intro h
      simp at h

/-- Witness for C2: the crate's own threshold test — threshold 10, state
after adding 9, then adding 15 signals `ThresholdReached` with the value
committed (count goes to 2). -/
theorem C2_witness :
    ((Moving.mk 1 9 [(9, 1)] 10).add_with_result f64Kind 15).2 =
        .error .ThresholdReached ∧
      ((Moving.mk 1 9 [(9, 1)] 10).add_with_result f64Kind 15).1.count = 2 := by
  have h := C2_threshold_semantics f64Kind (Moving.mk 1 9 [(9, 1)] 10) 15
  have he : ((Moving.mk 1 9 [(9, 1)] 10).add_with_result f64Kind 15).2 =
      .error .ThresholdReached :=
    h.1.mpr ⟨rfl, by norm_num [f64Kind]⟩
  exact ⟨he, (h.2 he).1⟩

/-- C6 counterexample: with `new()` the threshold is `f64::MAX`, yet adding
the value `f64::MAX` itself (a legal `f64`) drives the mean to the threshold
and `add_with_result` DOES return `ThresholdReached`. -/
theorem C6_counterexample :
    Moving.new.threshold = f64MAX ∧
      (Moving.new.add_with_result f64Kind f64MAX).2 = .error .ThresholdReached := by
  refine ⟨rfl, ?_⟩
  norm_num [Moving.add_with_result, Moving.new, f64Kind, bump, f64MAX]

/-- C6 (amended): for an accumulator created via `new()`, no call returns
`ThresholdReached` as long as every converted value stays strictly below
`f64::MAX` — which is the case for every value of every integer kind and of
`f32`, but not for `f64` values at `f64::MAX` and above. -/
theorem C6_amended (K : NumKind α) (vs : List α) (v : α)
    (hvs : ∀ x ∈ vs, K.toF64 x < f64MAX) (hv : K.toF64 v < f64MAX) :
    ((addAll K Moving.new vs).add_with_result K v).2 ≠ .error .ThresholdReached := by
  have hmean : (addAll K Moving.new vs).mean < f64MAX := by
    apply addAll_mean_lt K vs Moving.new _ hvs
    show (0 : ℚ) < f64MAX
    norm_num [f64MAX]
  have hth : (addAll K Moving.new vs).threshold = f64MAX :=
    addAll_threshold K vs Moving.new
  rw [add_with_result_eq]
  split_ifs with hacc hthr
  · exfalso
    have hlt : (commitState (addAll K Moving.new vs) (K.toF64 v)).mean < f64MAX :=
      commit_mean_lt hmean hv
    rw [hth] at hthr
    exact absurd hthr (not_le.mpr hlt)
  · simp
  · simp

/-- Witness for C6 (amended): adding 1 then 2 over `f64` never reports
`ThresholdReached`. -/
theorem C6_witness :
    ((addAll f64Kind Moving.new [1]).add_with_result f64Kind 2).2 ≠
      .error .ThresholdReached :=
  C6_amended f64Kind [1] 2
    (by
      intro x hx
      simp only [List.mem_singleton] at hx
      subst hx
      norm_num [f64Kind, f64MAX])
    (by norm_num [f64Kind, f64MAX])

/-- C7: the sum of the occurrence counts in the frequency table equals
`count`: it holds after construction (`new`, `new_with_threshold`), is
preserved by every `add_with_result` call, and therefore holds in every
reachable state (queries do not mutate the state at all). -/
theorem C7_table_sum_invariant (K : NumKind α) :
    table_sum Moving.new.mode_map = Moving.new.count ∧
    (∀ t : ℚ, table_sum (Moving.new_with_threshold t).mode_map =
        (Moving.new_with_threshold t).count) ∧
    (∀ (s : Moving) (v : α), table_sum s.mode_map = s.count →
        table_sum (s.add_with_result K v).1.mode_map =
          (s.add_with_result K v).1.count) ∧
    (∀ vs : List α, table_sum (addAll K Moving.new vs).mode_map =
        (addAll K Moving.new vs).count) := by
  have hstep : ∀ (s : Moving) (v : α), table_sum s.mode_map = s.count →
      table_sum (s.add_with_result K v).1.mode_map =
        (s.add_with_result K v).1.count := by
    intro s v h
    rw [add_with_result_eq]
    split_ifs
    · show table_sum (commitState s (K.toF64 v)).mode_map = _
      simp [commitState, bump_table_sum, h]
    · show table_sum (commitState s (K.toF64 v)).mode_map = _
      simp [commitState, bump_table_sum, h]
    · exact h
  have hfold : ∀ (vs : List α) (s : Moving), table_sum s.mode_map = s.count →
      table_sum (addAll K s vs).mode_map = (addAll K s vs).count := by
    intro vs
    induction vs with
    | nil => exact fun s h => h
    | cons v vs ih =>
      intro s h
      rw [addAll_cons]
      exact ih _ (hstep s v h)
  exact ⟨rfl, fun t => rfl, hstep, fun vs => hfold vs Moving.new rfl⟩

/-- Witness for C7: one `add_with_result` call starting from `new`. -/
theorem C7_witness :
    table_sum (Moving.new.add_with_result i64Kind 7).1.mode_map =
      (Moving.new.add_with_result i64Kind 7).1.count :=
  (C7_table_sum_invariant i64Kind).2.2.1 Moving.new 7 rfl

/-- C8: `mode()` returns 0.0 on an empty frequency table (no value ever
committed), and returns the current mean when the table is non-empty but its
maximal frequency is 1; in particular after adding 1, 2, 3 the mode equals
the mean. -/
theorem C8_mode_degenerate (s : Moving) :
    (s.mode_map = [] → s.mode = 0) ∧
    (s.mode_map ≠ [] → values_max s.mode_map = some 1 → s.mode = s.mean) := by
  constructor
  · intro h
    unfold Moving.mode
    rw [if_pos h]
  · intro h1 h2
    unfold Moving.mode
    rw [if_neg h1, h2]
    simp

/-- Witness for C8: a fresh accumulator has mode 0.0, and after adding the
all-distinct values 1, 2, 3 the mode equals the mean. -/
theorem C8_witness :
    Moving.new.mode = 0 ∧
      (addAll i64Kind Moving.new [1, 2, 3]).mode =
        (addAll i64Kind Moving.new [1, 2, 3]).mean := by
  constructor
  · exact (C8_mode_degenerate Moving.new).1 rfl
  · apply (C8_mode_degenerate (addAll i64Kind Moving.new [1, 2, 3])).2
    · norm_num [addAll, Moving.add, Moving.add_with_result, bump, Moving.new,
        i64Kind, f64MAX]
      simp
    · norm_num [addAll, Moving.add, Moving.add_with_result, bump, Moving.new,
        i64Kind, f64MAX, values_max]

/-- C9: every comparison operator reduces to a comparison of means: an
accumulator against a raw literal (either side) compares `mean()` with the
converted literal, and two accumulators compare by their `mean()` values,
regardless of counts, tables or thresholds. -/
theorem C9_comparisons_reduce_to_mean (K : NumKind α) (s t : Moving) (x : α) :
    (s.eq_lit K x = true ↔ s.mean = K.toF64 x) ∧
    (lit_eq_moving K x s = true ↔ K.toF64 x = s.mean) ∧
    (s.cmp_lit K x = some .lt ↔ s.mean < K.toF64 x) ∧
    (s.cmp_lit K x = some .eq ↔ s.mean = K.toF64 x) ∧
    (s.cmp_lit K x = some .gt ↔ K.toF64 x < s.mean) ∧
    (lit_cmp_moving K x s = some .lt ↔ K.toF64 x < s.mean) ∧
    (lit_cmp_moving K x s = some .gt ↔ s.mean < K.toF64 x) ∧
    (s.eq_moving t = true ↔ s.mean = t.mean) ∧
    (s.cmp_moving t = some .lt ↔ s.mean < t.mean) ∧
    (s.cmp_moving t = some .gt ↔ t.mean < s.mean) ∧
    (∀ (c₁ c₂ : ℕ) (m₁ m₂ : ℚ) (tb₁ tb₂ : List (ℚ × ℕ)) (th₁ th₂ : ℚ),
      Moving.eq_moving (Moving.mk c₁ m₁ tb₁ th₁) (Moving.mk c₂ m₂ tb₂ th₂) =
          Moving.eq_moving (Moving.mk 0 m₁ [] 0) (Moving.mk 0 m₂ [] 0) ∧
        Moving.cmp_moving (Moving.mk c₁ m₁ tb₁ th₁) (Moving.mk c₂ m₂ tb₂ th₂) =
          Moving.cmp_moving (Moving.mk 0 m₁ [] 0) (Moving.mk 0 m₂ [] 0)) := by
  refine ⟨by simp [Moving.eq_lit], by simp [lit_eq_moving],
    rat_cmp_lt _ _, rat_cmp_eq _ _, rat_cmp_gt _ _,
    rat_cmp_lt _ _, rat_cmp_gt _ _,
    by simp [Moving.eq_moving],
    rat_cmp_lt _ _, rat_cmp_gt _ _,
    fun c₁ c₂ m₁ m₂ tb₁ tb₂ th₁ th₂ => ⟨rfl, rfl⟩⟩

/-- C3 counterexample: after adding 10.5, 10, 10.5, 10, 4 the mean is 9 and
the values 10.5 and 10 tie at the maximal frequency 2, with 10 strictly
closer to the mean (|10 − 9| = 1 < 1.5 = |10.5 − 9|); yet `mode()` compares
the truncated distances `(1.5 as i64) = 1 = (1 as i64)` and returns the
first tied table entry, 10.5 — not the closest tied value. -/
theorem C3_counterexample :
    (addAll f64Kind Moving.new [21/2, 10, 21/2, 10, 4]).mode_map =
        [(21/2, 2), (10, 2), (4, 1)] ∧
      (addAll f64Kind Moving.new [21/2, 10, 21/2, 10, 4]).mean = 9 ∧
      (addAll f64Kind Moving.new [21/2, 10, 21/2, 10, 4]).mode = 21 / 2 ∧
      |10 - (9 : ℚ)| < |21 / 2 - (9 : ℚ)| := by
  refine ⟨?_, ?_, ?_, by norm_num [abs_eq_max_neg, max_def]⟩ <;>
    norm_num [addAll, Moving.add, Moving.add_with_result, bump, Moving.new,
      f64Kind, f64MAX, Moving.mode, values_max, min_by_key, f64_as_i64,
      rat_trunc, abs_eq_max_neg, max_def]
  all_goals simp

/-- C3 (amended): when several distinct values tie for the maximal frequency
(> 1), `mode()` compares tied values by the truncated absolute distance
`(value − mean).abs() as i64` — the first table entry among equal truncated
keys wins, which need not be the value closest to the mean.  The claim's two
concrete examples do hold: 10, 20, 10, 20, 1 gives mode 10.0, and a further
3000 gives mode 20.0. -/
theorem C3_amended :
    (addAll i64Kind Moving.new [10, 20, 10, 20, 1]).mode = 10 ∧
    (addAll i64Kind Moving.new [10, 20, 10, 20, 1, 3000]).mode = 20 ∧
    (∀ (s : Moving) (max_count : ℕ) (p : ℚ × ℕ) (ps : List (ℚ × ℕ)),
      s.mode_map ≠ [] →
      values_max s.mode_map = some max_count →
      max_count > 1 →
      s.mode_map.filter (fun q => q.2 = max_count) = p :: ps →
      ps ≠ [] →
      ∃ r ∈ p :: ps, s.mode = r.1 ∧
        ∀ q ∈ p :: ps,
          f64_as_i64 |r.1 - s.mean| ≤ f64_as_i64 |q.1 - s.mean|) := by
  refine ⟨?_, ?_, ?_⟩
  · norm_num [addAll, Moving.add, Moving.add_with_result, bump, Moving.new,
      i64Kind, f64MAX, Moving.mode, values_max, min_by_key, f64_as_i64,
      rat_trunc, abs_eq_max_neg, max_def]
    all_goals simp
  · norm_num [addAll, Moving.add, Moving.add_with_result, bump, Moving.new,
      i64Kind, f64MAX, Moving.mode, values_max, min_by_key, f64_as_i64,
      rat_trunc, abs_eq_max_neg, max_def]
    all_goals simp
  · intro s max_count p ps h1 h2 h3 h4 h5
    have h6 : ¬ (p :: ps).length = 1 := by
      cases ps with
      | nil => exact absurd rfl h5
      | cons q qs => simp
    have hmode : s.mode =
        (ps.foldl (fun best q =>
          if f64_as_i64 |q.1 - s.mean| < f64_as_i64 |best.1 - s.mean| then q
          else best) p).1 := by
      unfold Moving.mode
      rw [if_neg h1, h2]
      simp only [gt_iff_lt, h3, if_true]
      rw [h4, if_pos h6]
      rfl
    refine ⟨ps.foldl (fun best q =>
        if f64_as_i64 |q.1 - s.mean| < f64_as_i64 |best.1 - s.mean| then q
        else best) p,
      min_fold_mem (fun q => f64_as_i64 |q.1 - s.mean|) ps p, hmode,
      fun q hq => min_fold_le (fun q => f64_as_i64 |q.1 - s.mean|) ps p q hq⟩

/-- Witness for C3 (amended): the state reached by adding 10, 20, 10, 20, 1
(mean 61/5, table [(10, 2), (20, 2), (1, 1)]): the tied values are 10 and 20
and the mode minimises the truncated distance among them. -/
theorem C3_witness :
    ∃ r ∈ [((10 : ℚ), (2 : ℕ)), (20, 2)],
      (Moving.mk 5 (61/5) [(10, 2), (20, 2), (1, 1)] f64MAX).mode = r.1 ∧
        ∀ q ∈ [((10 : ℚ), (2 : ℕ)), (20, 2)],
          f64_as_i64 |r.1 - (Moving.mk 5 (61/5) [(10, 2), (20, 2), (1, 1)] f64MAX).mean| ≤
            f64_as_i64 |q.1 - (Moving.mk 5 (61/5) [(10, 2), (20, 2), (1, 1)] f64MAX).mean| :=
  C3_amended.2.2 (Moving.mk 5 (61/5) [(10, 2), (20, 2), (1, 1)] f64MAX) 2
    (10, 2) [(20, 2)] (by simp) rfl (by norm_num) (by simp) (by simp)

end MovingAverage
